import Mathlib

/-!
Verification of the fmemo repository (Markdown memo viewer).

The TypeScript frontend sources under `src/frontend/src` are shallowly
embedded below.  JavaScript strings are modelled as `List Char` (`Str`),
JavaScript numbers used as integers as `Nat`, and the floating-point
zoom factor as exact rationals (the verified property is a clamped
interval that is insensitive to rounding because the clamping `min`/`max`
are the final operations).  Fallible operations (HTTP fetch, JSON parse)
are modelled by an explicit outcome type.  The Rust backend parser is not
part of the repository snapshot; where a claim depends on it, the
definition is modelled from the specification text and marked as such.
-/

namespace Fmemo

/-- JavaScript strings are modelled as lists of characters. -/
abbrev Str := List Char

/-- Coercion from Lean string literals into the `Str` model. -/
def ofStr (s : String) : Str := s.data

/-- JavaScript `String.prototype.split` with a single-character
separator: `"".split(sep)` is `[""]`, and each occurrence of the
separator starts a new field. -/
def splitChar : Str → Char → List Str
  | [], _ => [[]]
  | c :: cs, sep =>
    let rest := splitChar cs sep
    if c = sep then [] :: rest
    else
      match rest with
      | [] => [[c]]
      | r :: rs => (c :: r) :: rs

/-- JavaScript `String.prototype.trimStart` (leading whitespace removed).
Whitespace is modelled by `Char.isWhitespace`; the inputs in this
development are ASCII, where the two notions agree. -/
def jsTrimStart (s : Str) : Str := s.dropWhile Char.isWhitespace

/-- JavaScript `String.prototype.trim` (both ends). -/
def jsTrim (s : Str) : Str :=
  ((s.dropWhile Char.isWhitespace).reverse.dropWhile Char.isWhitespace).reverse

/-! ## types/index.ts -/

/-- `CodeBlock` from `src/frontend/src/types/index.ts`. -/
structure CodeBlock where
  language : Str
  code : Str

/-- `FunctionMemo` from `src/frontend/src/types/index.ts` (recursive
through `children`). -/
inductive FunctionMemo where
  | mk (level : Nat) (title : Str) (description : Option Str)
       (content : Str) (codeBlocks : List CodeBlock)
       (children : List FunctionMemo)

/-- `FunctionMemo.level` accessor. -/
def FunctionMemo.level : FunctionMemo → Nat
  | .mk l _ _ _ _ _ => l

/-! ## hooks/useZoom.ts -/

/-- `ZoomState` from `types/index.ts`; the JavaScript floating-point
numbers are modelled as exact rationals. -/
structure ZoomState where
  zoom : ℚ
  panX : ℚ
  panY : ℚ

/-- The initial state of `useZoom` (`useZoom.ts` lines 5-9). -/
def initialZoomState : ZoomState := { zoom := 1.0, panX := 0, panY := 0 }

/-- The five state-updating operations returned by `useZoom`. -/
inductive ZoomOp where
  | zoomIn
  | zoomOut
  | resetZoom
  | fitToScreen
  | updatePan (deltaX deltaY : ℚ)

/-- One `setZoomState` update of `useZoom` (`useZoom.ts` lines 11-47):
`zoomIn` multiplies by 1.25 capped at 5.0, `zoomOut` multiplies by 0.8
floored at 0.1, `resetZoom`/`fitToScreen` restore 1.0 with zero pan, and
`updatePan` translates the pan offsets. -/
def applyZoomOp (prev : ZoomState) : ZoomOp → ZoomState
  | .zoomIn => { prev with zoom := min (prev.zoom * 1.25) 5.0 }
  | .zoomOut => { prev with zoom := max (prev.zoom * 0.8) 0.1 }
  | .resetZoom => { zoom := 1.0, panX := 0, panY := 0 }
  | .fitToScreen => { zoom := 1.0, panX := 0, panY := 0 }
  | .updatePan dx dy => { prev with panX := prev.panX + dx, panY := prev.panY + dy }

/-- The zoom state reached from the initial state by a sequence of
operations. -/
def runZoom (ops : List ZoomOp) : ZoomState :=
  ops.foldl applyZoomOp initialZoomState

/-! ## hooks/useWebSocket.ts -/

/-- `maxReconnectAttempts` from `useWebSocket.ts` line 37. -/
def maxReconnectAttempts : Nat := 5

/-- The observable effect of one `onclose` callback run
(`useWebSocket.ts` lines 65-81): whether a reconnect timer is scheduled
(and with which delay in milliseconds), and whether the hook error state
is set. -/
structure OnCloseResult where
  scheduledDelay : Option Nat
  errorSet : Option String
deriving DecidableEq

/-- The `onclose` handler of `useWebSocket.connect` (`useWebSocket.ts`
lines 65-81) as a function of the close event code and the current
number of reconnection attempts so far. -/
def onCloseBehavior (code : Nat) (reconnectAttempts : Nat) : OnCloseResult :=
  if code ≠ 1000 ∧ reconnectAttempts < maxReconnectAttempts then
    { scheduledDelay := some (min (1000 * 2 ^ reconnectAttempts) 30000)
      errorSet := none }
  else if reconnectAttempts ≥ maxReconnectAttempts then
    { scheduledDelay := none
      errorSet := some "Failed to reconnect to WebSocket after multiple attempts" }
  else
    { scheduledDelay := none, errorSet := none }

/-! ## components/MemoContainer/MemoContainer.tsx and FlowView/FlowNode.tsx -/

/-- The level CSS class computed by `MemoContainer`
(`MemoContainer.tsx` line 26): backtick-template
level-(Math.min(memo.level, 8)). -/
def memoContainerLevelClass (level : Nat) : Str :=
  ofStr "level-" ++ Nat.toDigits 10 (min level 8)

/-- The level CSS class computed by `FlowNode` (`FlowNode.tsx` line 19),
the same expression as in `MemoContainer`. -/
def flowNodeLevelClass (level : Nat) : Str :=
  ofStr "level-" ++ Nat.toDigits 10 (min level 8)

end Fmemo

namespace Fmemo

/-! ## api/client.ts -/

/-- `ApiResponse<T>` from `client.ts` lines 3-6. -/
structure ApiResponse (α : Type) where
  data : α
  error : Option String

mutual
/-- `ApiDirectoryTree` from `client.ts` lines 8-12, mutually with an
explicit list type so that recursion over it is structural. -/
inductive ApiDirectoryTree where
  | mk (path : Str) (files : List Str) (subdirectories : ApiDirTreeList)
/-- Lists of `ApiDirectoryTree`, as a mutual inductive. -/
inductive ApiDirTreeList where
  | nil
  | cons (head : ApiDirectoryTree) (tail : ApiDirTreeList)
end

/-- `path` field of `ApiDirectoryTree`. -/
def ApiDirectoryTree.path : ApiDirectoryTree → Str
  | .mk p _ _ => p

/-- `ApiFileContent` from `client.ts` lines 14-18, with `memos` already
in the frontend `FunctionMemo` shape (the snake-case/Level
normalisation done by `transformApiMemos` is orthogonal to the claims
about URLs and error handling). -/
structure ApiFileContent where
  path : Str
  content : Str
  memos : List FunctionMemo

/-- Outcome of one `fetch` + `response.json()` round trip as observed by
the `try` block of the client methods: a parsed success body, a non-OK
HTTP response (which the code turns into a thrown `Error`), or a thrown
network/JSON failure (`some msg` when the thrown value is an `Error`
with message `msg`, `none` for a non-`Error` throw). -/
inductive FetchEvent (α : Type) where
  | success (body : α)
  | httpError (status : Nat) (statusText : String)
  | thrown (errMsg : Option String)

/-- Whether the fetch outcome takes the `catch` path. -/
def FetchEvent.isFailure : FetchEvent α → Bool
  | .success _ => false
  | .httpError _ _ => true
  | .thrown _ => true

/-- The message of the caught exception
(`error instanceof Error ? error.message : 'Unknown error'`, with the
non-OK branch first constructing a backtick-template
HTTP (status): (statusText) message, `client.ts` lines 36 and 44). -/
def fetchErrorMessage : FetchEvent α → String
  | .success _ => ""
  | .httpError status statusText => "HTTP " ++ toString status ++ ": " ++ statusText
  | .thrown errMsg => errMsg.getD "Unknown error"

/-- The percent-encoding alphabet left intact by JavaScript
`encodeURIComponent`: ASCII letters, digits, and `- _ . ! ~ * ' ( )`
(the apostrophe is written by code point). -/
def isUnreservedURIChar (c : Char) : Bool :=
  ('A' ≤ c ∧ c ≤ 'Z') ∨ ('a' ≤ c ∧ c ≤ 'z') ∨ ('0' ≤ c ∧ c ≤ '9') ∨
    c = '-' ∨ c = '_' ∨ c = '.' ∨ c = '!' ∨ c = '~' ∨ c = '*' ∨
    c = Char.ofNat 39 ∨ c = '(' ∨ c = ')'

/-- Upper-case hexadecimal digit of a value below 16. -/
def hexDigitChar (n : Nat) : Char :=
  if n < 10 then Char.ofNat (48 + n) else Char.ofNat (55 + n)

/-- The UTF-8 bytes of a Unicode scalar value, as natural numbers. -/
def utf8BytesOfCode (n : Nat) : List Nat :=
  if n < 0x80 then [n]
  else if n < 0x800 then [0xC0 + n / 64, 0x80 + n % 64]
  else if n < 0x10000 then [0xE0 + n / 4096, 0x80 + n / 64 % 64, 0x80 + n % 64]
  else [0xF0 + n / 262144, 0x80 + n / 4096 % 64, 0x80 + n / 64 % 64, 0x80 + n % 64]

/-- Percent-encoding of one byte. -/
def percentByte (b : Nat) : Str :=
  ['%', hexDigitChar (b / 16), hexDigitChar (b % 16)]

/-- JavaScript `encodeURIComponent`: unreserved characters are kept,
every other character is replaced by the percent-encoding of its UTF-8
bytes. -/
def encodeURIComponent (s : Str) : Str :=
  s.foldr
    (fun c acc =>
      (if isUnreservedURIChar c then [c]
       else (utf8BytesOfCode c.toNat).foldr (fun b acc2 => percentByte b ++ acc2) []) ++ acc)
    []

/-- The URL built by `ApiClient.getDirectoryTree` (`client.ts` line 32):
the `/api/root` endpoint when `path` is falsy (the empty string), else
`/api/files/` followed by the URI-encoded path. -/
def directoryTreeUrl (baseUrl : Str) (path : Str) : Str :=
  if path ≠ [] then baseUrl ++ ofStr "/api/files/" ++ encodeURIComponent path
  else baseUrl ++ ofStr "/api/root"

/-- `ApiClient.getDirectoryTree` (`client.ts` lines 30-47) as a function
of the fetch outcome: a success body resolves as the data, any failure
resolves (never rejects) with the empty default tree and the caught
error message. -/
def getDirectoryTreeResult (ev : FetchEvent ApiDirectoryTree) :
    ApiResponse ApiDirectoryTree :=
  match ev with
  | .success body => { data := body, error := none }
  | .httpError status statusText =>
      { data := .mk [] [] .nil
        error := some (fetchErrorMessage (FetchEvent.httpError (α := ApiDirectoryTree) status statusText)) }
  | .thrown errMsg =>
      { data := .mk [] [] .nil
        error := some (fetchErrorMessage (FetchEvent.thrown (α := ApiDirectoryTree) errMsg)) }

/-- The fallback branch of the relative-path computation in
`ApiClient.getFileContent` (`client.ts` line 58):
`filePath.includes('/') ? (filePath.split('/').pop() || filePath) : filePath`. -/
def basenameFallback (filePath : Str) : Str :=
  if '/' ∈ filePath then
    match (splitChar filePath '/').getLast? with
    | some lastPart => if lastPart ≠ [] then lastPart else filePath
    | none => filePath
  else filePath

/-- The relative path sent by `ApiClient.getFileContent` (`client.ts`
lines 52-59): when `lastRootPath` is truthy (set and non-empty) and
`filePath` starts with it, the remainder after stripping that prefix
(and one leading slash); otherwise the basename fallback. -/
def relativePathForApi (lastRootPath : Option Str) (filePath : Str) : Str :=
  match lastRootPath with
  | some r =>
      if r ≠ [] ∧ r.isPrefixOf filePath then
        let rel := filePath.drop r.length
        if ['/'].isPrefixOf rel then rel.drop 1 else rel
      else basenameFallback filePath
  | none => basenameFallback filePath

/-- The URL built by `ApiClient.getFileContent` (`client.ts` line 62). -/
def fileContentUrl (baseUrl : Str) (lastRootPath : Option Str) (filePath : Str) : Str :=
  baseUrl ++ ofStr "/api/file/" ++ encodeURIComponent (relativePathForApi lastRootPath filePath)

/-- `ApiClient.getFileContent` (`client.ts` lines 49-83) as a function
of the fetch outcome: a success body resolves as
`{path, content, memos}`, any failure resolves (never rejects) with
`{path: filePath, content: '', memos: []}` and the caught error
message. -/
def getFileContentResult (filePath : Str) (ev : FetchEvent ApiFileContent) :
    ApiResponse ApiFileContent :=
  match ev with
  | .success raw =>
      { data := { path := raw.path, content := raw.content, memos := raw.memos }
        error := none }
  | .httpError status statusText =>
      { data := { path := filePath, content := [], memos := [] }
        error := some (fetchErrorMessage (FetchEvent.httpError (α := ApiFileContent) status statusText)) }
  | .thrown errMsg =>
      { data := { path := filePath, content := [], memos := [] }
        error := some (fetchErrorMessage (FetchEvent.thrown (α := ApiFileContent) errMsg)) }

/-! ## api/client.ts — convertToDirectoryStructure -/

/-- The two values of `FileItem.type` from `types/index.ts`. -/
inductive FileItemType where
  | file
  | directory
deriving DecidableEq

/-- `FileItem` from `types/index.ts` (recursive through the optional
`children` of directory items). -/
inductive FileItem where
  | mk (name : Str) (path : Str) (type : FileItemType)
       (extension : Option Str) (children : Option (List FileItem))

/-- `FileItem.name` accessor. -/
def FileItem.name : FileItem → Str
  | .mk n _ _ _ _ => n

/-- `FileItem.type` accessor. -/
def FileItem.type : FileItem → FileItemType
  | .mk _ _ t _ _ => t

/-- `DirectoryStructure` from `types/index.ts`. -/
structure DirectoryStructure where
  path : Str
  items : List FileItem

/-- Lexicographic (code-point) comparison of names; this models
`a.name.localeCompare(b.name)` in `client.ts` line 159 (the entry names
relevant here are ASCII, where locale order and code-point order
agree). -/
def lexLe : Str → Str → Bool
  | [], _ => true
  | _ :: _, [] => false
  | a :: as, b :: bs => if a = b then lexLe as bs else decide (a < b)

/-- The sort comparator of `client.ts` lines 154-160 as a boolean
"may come before" relation: directories sort before files, and entries
of the same type sort by name. -/
def fileItemLe (a b : FileItem) : Bool :=
  if a.type ≠ b.type then a.type = FileItemType.directory
  else lexLe a.name b.name

/-- Stable insertion of one element: `x` is placed before the first
element that is not strictly smaller under `le`. -/
def orderedInsert (le : FileItem → FileItem → Bool) (x : FileItem) :
    List FileItem → List FileItem
  | [] => [x]
  | y :: ys =>
    if le y x ∧ ¬ le x y then y :: orderedInsert le x ys
    else x :: y :: ys

/-- Stable sort by `fileItemLe`; this models the (stable) JavaScript
`Array.prototype.sort` call of `client.ts` lines 154-161. -/
def sortItems : List FileItem → List FileItem
  | [] => []
  | x :: xs => orderedInsert fileItemLe x (sortItems xs)

/-- `ApiClient.getFileExtension` (`client.ts` lines 164-167): the suffix
from the last dot on, or the empty string when there is no dot. -/
def getFileExtension (filename : Str) : Str :=
  if filename.contains '.' then
    match (splitChar filename '.').getLast? with
    | some ext => '.' :: ext
    | none => []
  else []

mutual
/-- `ApiClient.convertToDirectoryStructure` (`client.ts` lines 119-162):
directory items (recursively converted) and file items are collected and
then sorted with the comparator that puts directories first and orders
by name within each group.  The `lastRootPath` side effect of line 126
is modelled as the `lastRootPath` argument of `relativePathForApi`. -/
def convertToDirectoryStructure (apiData : ApiDirectoryTree) (currentPath : Option Str) :
    DirectoryStructure :=
  match apiData with
  | .mk apiPath files subdirectories =>
    let path : Str :=
      match currentPath with
      | some p => if p ≠ [] then p else apiPath
      | none => apiPath
    let dirItems := convertSubdirItems subdirectories
    let fileItems := files.map (fun file =>
      FileItem.mk file (path ++ '/' :: file) FileItemType.file
        (some (getFileExtension file)) none)
    { path := path, items := sortItems (dirItems ++ fileItems) }

/-- The `apiData.subdirectories.forEach` loop of `client.ts`
lines 130-139: each subdirectory becomes a directory item named by the
last segment of its path, with recursively converted children. -/
def convertSubdirItems : ApiDirTreeList → List FileItem
  | .nil => []
  | .cons subdir rest =>
    let dirName : Str :=
      match (splitChar subdir.path '/').getLast? with
      | some lastPart => if lastPart ≠ [] then lastPart else subdir.path
      | none => subdir.path
    let subdirStructure := convertToDirectoryStructure subdir (some subdir.path)
    FileItem.mk dirName subdir.path FileItemType.directory none (some subdirStructure.items)
      :: convertSubdirItems rest
end

/-! ## hooks/useWebSocket.ts message shape and components/App/App.tsx handler -/

/-- The `type` field of `WebSocketMessage` (`useWebSocket.ts`
lines 3-10): the union has four members, not two. -/
inductive WebSocketMessageType where
  | reload
  | update
  | file_updated
  | directory_updated
deriving DecidableEq

/-- `WebSocketMessage` from `useWebSocket.ts` lines 3-10.  The `tree`
payload is `any` in the source and never inspected by the frontend, so
it is modelled opaquely. -/
structure WebSocketMessage where
  type : WebSocketMessageType
  path : Option Str
  file_path : Option Str
  html : Option Str
  memos : Option (List FunctionMemo)
  tree : Option Unit

/-- The observable effect of the `App` WebSocket-message `useEffect`
switch (`App.tsx` lines 62-100) on one message. -/
inductive AppWsAction where
  | reloadApp (refetchSelected : Bool)
  | fileUpdate (refreshSelected : Bool) (invalidated : Option Str)
      (memosSet : Option (List FunctionMemo))
  | unknown

/-- The shared `file_updated`/`update` branch of the `App` switch
(`App.tsx` lines 72-96): when the message's `path` is truthy, the
selected file is refreshed (when it equals or ends with that path) or
the cache for that path is invalidated; memos carried in the message are
applied only for the selected file. -/
def appHandleFileUpdated (msg : WebSocketMessage) (selectedFile : Str) : AppWsAction :=
  match msg.path with
  | some updatedPath =>
      if updatedPath ≠ [] then
        let isSelected := selectedFile = updatedPath ∨ updatedPath.isSuffixOf selectedFile
        .fileUpdate (decide isSelected)
          (if isSelected then none else some updatedPath)
          (match msg.memos with
           | some ms => if isSelected then some ms else none
           | none => none)
      else .fileUpdate false none none
  | none => .fileUpdate false none none

/-- The `switch (lastMessage.type)` of `App.tsx` lines 62-100: `reload`
refreshes the directory (and the selected file if any); `file_updated`
and `update` share one branch keyed on the message's `path` field;
every other type (only `directory_updated` remains) falls through to the
`default` "Unknown WebSocket message type" branch. -/
def appHandleWebSocketMessage (msg : WebSocketMessage) (selectedFile : Str) : AppWsAction :=
  match msg.type with
  | .reload => .reloadApp (selectedFile ≠ [])
  | .file_updated =>
      appHandleFileUpdated msg selectedFile
  | .update =>
      appHandleFileUpdated msg selectedFile
  | .directory_updated => .unknown

/-! ## components/MemoContainer/MemoContainer.tsx — markdownToHtml -/

/-- One character of `escapeHtml` (`MemoContainer.tsx` lines 154-161).
The source applies five sequential global `String.replace` passes with
the ampersand replaced first; since no replacement string contains a
character replaced by a later pass, that is equivalent to this single
character-by-character map.  The double quote and the apostrophe are
written by code point (34 and 39). -/
def escapeHtmlChar (c : Char) : Str :=
  if c = '&' then ofStr "&amp;"
  else if c = '<' then ofStr "&lt;"
  else if c = '>' then ofStr "&gt;"
  else if c = Char.ofNat 34 then ofStr "&quot;"
  else if c = Char.ofNat 39 then ofStr "&#x27;"
  else [c]

/-- `escapeHtml` (`MemoContainer.tsx` lines 154-161). -/
def escapeHtml (text : Str) : Str := (text.map escapeHtmlChar).flatten

/-- The loop state of `markdownToHtml` (`MemoContainer.tsx`
lines 92-152).  `listLevels` is a JavaScript array used as a stack with
push/pop at the end; it is modelled head-first (the head is the
innermost open list level). -/
structure MdState where
  html : Str
  listLevels : List Nat
  currentParagraph : Str

/-- The `while (listLevels.length > 0 && top >= currentLevel)` pop loop
of `MemoContainer.tsx` lines 109-112: the remaining stack and the
number of `</ul>` tags emitted. -/
def popGE : List Nat → Nat → List Nat × Nat
  | [], _ => ([], 0)
  | l :: ls, currentLevel =>
    if l ≥ currentLevel then
      let (rest, n) := popGE ls currentLevel
      (rest, n + 1)
    else (l :: ls, 0)

/-- The text emitted for one closed list. -/
def closeUlStr : Str := ofStr "</ul>\n"

/-- `n` copies of a chunk, for the emission of the pop loops. -/
def repeatStr (s : Str) (n : Nat) : Str := (List.replicate n s).flatten

/-- The `'  '.repeat(listLevels.length)` indentation of
`MemoContainer.tsx` line 120. -/
def indentStr (depth : Nat) : Str := (List.replicate depth (ofStr "  ")).flatten

/-- One iteration of the `for (const line of text.split('\n'))` loop of
`markdownToHtml` (`MemoContainer.tsx` lines 97-141). -/
def mdStep (st : MdState) (line : Str) : MdState :=
  let leadingSpaces := line.length - (jsTrimStart line).length
  let trimmed := jsTrim line
  if (ofStr "- ").isPrefixOf trimmed then
    let html1 :=
      if jsTrim st.currentParagraph ≠ [] then
        st.html ++ ofStr "<p>" ++ jsTrim st.currentParagraph ++ ofStr "</p>\n"
      else st.html
    let currentLevel := leadingSpaces
    let (levels1, closed) := popGE st.listLevels currentLevel
    let html2 := html1 ++ repeatStr closeUlStr closed
    let (levels2, html3) :=
      match levels1 with
      | [] => (currentLevel :: levels1, html2 ++ ofStr "<ul>\n")
      | top :: _ =>
        if top < currentLevel then (currentLevel :: levels1, html2 ++ ofStr "<ul>\n")
        else (levels1, html2)
    let itemText := trimmed.drop 2
    { html := html3 ++ indentStr levels2.length ++ ofStr "<li>" ++ escapeHtml itemText
        ++ ofStr "</li>\n"
      listLevels := levels2
      currentParagraph := [] }
  else if trimmed = [] then
    let html1 := st.html ++ repeatStr closeUlStr st.listLevels.length
    let html2 :=
      if jsTrim st.currentParagraph ≠ [] then
        html1 ++ ofStr "<p>" ++ jsTrim st.currentParagraph ++ ofStr "</p>\n"
      else html1
    { html := html2, listLevels := [], currentParagraph := [] }
  else
    let html1 := st.html ++ repeatStr closeUlStr st.listLevels.length
    let para1 :=
      if st.currentParagraph ≠ [] then st.currentParagraph ++ [' ']
      else st.currentParagraph
    { html := html1, listLevels := [], currentParagraph := para1 ++ trimmed }

/-- `markdownToHtml` (`MemoContainer.tsx` lines 92-152): the loop over
the lines followed by the final flush of open lists and the pending
paragraph. -/
def markdownToHtml (text : Str) : Str :=
  let final := (splitChar text '\n').foldl mdStep
    { html := [], listLevels := [], currentParagraph := [] }
  let html1 := final.html ++ repeatStr closeUlStr final.listLevels.length
  if jsTrim final.currentParagraph ≠ [] then
    html1 ++ ofStr "<p>" ++ jsTrim final.currentParagraph ++ ofStr "</p>\n"
  else html1

/-- The kinds of HTML chunks `markdownToHtml` emits.  A `li` piece
carries the raw (unescaped) item text; a `para` piece carries the raw
paragraph text.  Rendering (`renderPiece`) escapes the former and not
the latter, exactly as the source does. -/
inductive HtmlPiece where
  | ulOpen
  | ulClose
  | li (depth : Nat) (itemText : Str)
  | para (text : Str)

/-- The HTML text of one piece: list items pass their raw text through
`escapeHtml`; paragraphs are emitted verbatim. -/
def renderPiece : HtmlPiece → Str
  | .ulOpen => ofStr "<ul>\n"
  | .ulClose => closeUlStr
  | .li depth itemText => indentStr depth ++ ofStr "<li>" ++ escapeHtml itemText ++ ofStr "</li>\n"
  | .para text => ofStr "<p>" ++ text ++ ofStr "</p>\n"

/-- Concatenated rendering of a piece list. -/
def renderPieces (ps : List HtmlPiece) : Str := (ps.map renderPiece).flatten

/-- The piece-level mirror of `MdState`. -/
structure PieceState where
  pieces : List HtmlPiece
  listLevels : List Nat
  currentParagraph : Str

/-- The piece-level mirror of `mdStep`: identical control flow, but the
emitted chunks are recorded as pieces instead of flat text. -/
def pieceStep (st : PieceState) (line : Str) : PieceState :=
  let leadingSpaces := line.length - (jsTrimStart line).length
  let trimmed := jsTrim line
  if (ofStr "- ").isPrefixOf trimmed then
    let pieces1 :=
      if jsTrim st.currentParagraph ≠ [] then
        st.pieces ++ [HtmlPiece.para (jsTrim st.currentParagraph)]
      else st.pieces
    let currentLevel := leadingSpaces
    let (levels1, closed) := popGE st.listLevels currentLevel
    let pieces2 := pieces1 ++ List.replicate closed HtmlPiece.ulClose
    let (levels2, pieces3) :=
      match levels1 with
      | [] => (currentLevel :: levels1, pieces2 ++ [HtmlPiece.ulOpen])
      | top :: _ =>
        if top < currentLevel then (currentLevel :: levels1, pieces2 ++ [HtmlPiece.ulOpen])
        else (levels1, pieces2)
    let itemText := trimmed.drop 2
    { pieces := pieces3 ++ [HtmlPiece.li levels2.length itemText]
      listLevels := levels2
      currentParagraph := [] }
  else if trimmed = [] then
    let pieces1 := st.pieces ++ List.replicate st.listLevels.length HtmlPiece.ulClose
    let pieces2 :=
      if jsTrim st.currentParagraph ≠ [] then
        pieces1 ++ [HtmlPiece.para (jsTrim st.currentParagraph)]
      else pieces1
    { pieces := pieces2, listLevels := [], currentParagraph := [] }
  else
    let pieces1 := st.pieces ++ List.replicate st.listLevels.length HtmlPiece.ulClose
    let para1 :=
      if st.currentParagraph ≠ [] then st.currentParagraph ++ [' ']
      else st.currentParagraph
    { pieces := pieces1, listLevels := [], currentParagraph := para1 ++ trimmed }

/-- The pieces emitted by `markdownToHtml` on the given input, in
order. -/
def piecesOf (text : Str) : List HtmlPiece :=
  let final := (splitChar text '\n').foldl pieceStep
    { pieces := [], listLevels := [], currentParagraph := [] }
  let pieces1 := final.pieces ++ List.replicate final.listLevels.length HtmlPiece.ulClose
  if jsTrim final.currentParagraph ≠ [] then
    pieces1 ++ [HtmlPiece.para (jsTrim final.currentParagraph)]
  else pieces1

/-- The refinement relation between the flat-text loop state of
`markdownToHtml` and its piece-level mirror. -/
def MdRel (m : MdState) (p : PieceState) : Prop :=
  m.html = renderPieces p.pieces ∧ m.listLevels = p.listLevels ∧
    m.currentParagraph = p.currentParagraph

/-! ## HeadingParser (modelled from the spec)

The Rust backend that implements `HeadingParser` is not part of the
repository snapshot (`src/` contains only the TypeScript frontend), so
its heading-nesting algorithm is modelled from the specification text
(§4.1, §6).  Only the heading-structure skeleton is modelled: body
content, `<desc>`/`<path>` tags and fenced code blocks do not affect
which heading nests under which, and the claims settled against this
model concern only the nesting structure of heading-only documents. -/

/-- Modelled from the spec: one node of the parsed memo forest, reduced
to the heading skeleton (level, title, ordered children). -/
inductive MemoTree where
  | mk (level : Nat) (title : Str) (children : List MemoTree)

/-- Modelled from the spec (§6): a heading line is a run of one or more
leading `#` characters (count = level) followed by a space and the title
text; the title is the line's remaining text, trimmed. -/
def headingOfLine (line : Str) : Option (Nat × Str) :=
  let hashes := line.takeWhile (fun c => c = '#')
  let rest := line.drop hashes.length
  if hashes ≠ [] ∧ [' '].isPrefixOf rest then
    some (hashes.length, jsTrim rest)
  else none

/-- Modelled from the spec (§4.1): one entry of the stack of "open"
nodes — its heading and its children collected so far (newest first). -/
structure OpenNode where
  level : Nat
  title : Str
  revChildren : List MemoTree

/-- Cascade a finished subtree down the stack while entries keep
closing (their level is still ≥ the new heading's level): each closed
entry becomes a node owning its collected children and is attached to
the entry below it, or to the root list when the stack runs out. -/
def closeInto (lvl : Nat) (roots : List MemoTree) (t : MemoTree) :
    List OpenNode → List MemoTree × List OpenNode
  | [] => (t :: roots, [])
  | e :: rest =>
    if lvl ≤ e.level then
      closeInto lvl roots (MemoTree.mk e.level e.title (t :: e.revChildren).reverse) rest
    else (roots, { e with revChildren := t :: e.revChildren } :: rest)

/-- Modelled from the spec (§4.1): on a new heading of level `lvl`,
close all stack entries whose level is ≥ `lvl`. -/
def closeGE (lvl : Nat) (roots : List MemoTree) :
    List OpenNode → List MemoTree × List OpenNode
  | [] => (roots, [])
  | e :: rest =>
    if lvl ≤ e.level then
      closeInto lvl roots (MemoTree.mk e.level e.title e.revChildren.reverse) rest
    else (roots, e :: rest)

/-- Modelled from the spec (§4.1): processing one heading closes the
stack entries at its level or deeper, then pushes the new node as the
open current node. -/
def stepHeading (st : List MemoTree × List OpenNode) (h : Nat × Str) :
    List MemoTree × List OpenNode :=
  let (roots, stack) := closeGE h.1 st.1 st.2
  (roots, { level := h.1, title := h.2, revChildren := [] } :: stack)

/-- Modelled from the spec (§4.1): at end of input the whole stack
closes implicitly (level 0 is below every positive heading level); the
accumulated roots (collected newest-first) are reversed into document
order. -/
def finalizeForest (st : List MemoTree × List OpenNode) : List MemoTree :=
  (closeGE 0 st.1 st.2).1.reverse

/-- Modelled from the spec (§4.1): the heading-structure parse of a
document given as its sequence of (level, title) headings. -/
def parseHeadings (hs : List (Nat × Str)) : List MemoTree :=
  finalizeForest (hs.foldl stepHeading ([], []))

/-- Modelled from the spec (§4.1, §6): the heading-structure parse of a
document text — split into lines, keep the heading lines, build the
forest. -/
def parseDocument (text : Str) : List MemoTree :=
  parseHeadings ((splitChar text '\n').filterMap headingOfLine)

end Fmemo

namespace Fmemo

/-! # Helper lemmas -/

/-- Each `useZoom` operation preserves the zoom interval `[0.1, 5.0]`. -/
theorem applyZoomOp_bounds (s : ZoomState) (op : ZoomOp)
    (h : 0.1 ≤ s.zoom ∧ s.zoom ≤ 5.0) :
    0.1 ≤ (applyZoomOp s op).zoom ∧ (applyZoomOp s op).zoom ≤ 5.0 := by
  obtain ⟨h1, h2⟩ := h
  cases op with
  | zoomIn =>
    refine ⟨le_min (by nlinarith) (by norm_num), min_le_right _ _⟩
  | zoomOut =>
    refine ⟨le_max_right _ _, max_le (by nlinarith) (by norm_num)⟩
  | resetZoom => exact ⟨by norm_num [applyZoomOp], by norm_num [applyZoomOp]⟩
  | fitToScreen => exact ⟨by norm_num [applyZoomOp], by norm_num [applyZoomOp]⟩
  | updatePan dx dy => exact ⟨h1, h2⟩

/-- `splitChar` never returns the empty list. -/
theorem splitChar_ne_nil (s : Str) (sep : Char) : splitChar s sep ≠ [] := by
  cases s with
  | nil => simp [splitChar]
  | cons c cs =>
    simp only [splitChar]
    split
    · simp
    · split <;> simp

/-- Splitting at an explicit separator occurrence splits around it. -/
theorem splitChar_append_sep (a b : Str) (sep : Char) :
    splitChar (a ++ sep :: b) sep = splitChar a sep ++ splitChar b sep := by
  induction a with
  | nil => simp [splitChar]
  | cons c a ih =>
    obtain ⟨r, rs, hr⟩ : ∃ r rs, splitChar a sep = r :: rs := by
      cases h : splitChar a sep with
      | nil => exact absurd h (splitChar_ne_nil a sep)
      | cons r rs => exact ⟨r, rs, rfl⟩
    simp only [List.cons_append, splitChar, List.append_eq]
    rw [ih, hr]
    by_cases hc : c = sep
    · simp [hc]
    · simp [hc]

/-- A string without the separator splits into itself alone. -/
theorem splitChar_of_not_contains (s : Str) (sep : Char) (h : ¬ sep ∈ s) :
    splitChar s sep = [s] := by
  induction s with
  | nil => simp [splitChar]
  | cons c cs ih =>
    simp only [List.mem_cons, not_or] at h
    simp only [splitChar]
    rw [if_neg (fun hc => h.1 hc.symm), ih h.2]

end Fmemo

namespace Fmemo

/-! # Claim theorems -/

/-- C9: starting from the initial state `{zoom := 1.0, panX := 0,
panY := 0}`, every state reachable through any sequence of `zoomIn`,
`zoomOut`, `resetZoom`, `fitToScreen` and `updatePan` operations has its
zoom in the interval `[0.1, 5.0]`. -/
theorem useZoom_zoom_bounds (ops : List ZoomOp) :
    0.1 ≤ (runZoom ops).zoom ∧ (runZoom ops).zoom ≤ 5.0 := by
  have key : ∀ (l : List ZoomOp) (s : ZoomState),
      0.1 ≤ s.zoom ∧ s.zoom ≤ 5.0 →
      0.1 ≤ (l.foldl applyZoomOp s).zoom ∧ (l.foldl applyZoomOp s).zoom ≤ 5.0 := by
    intro l
    induction l with
    | nil => intro s hs; exact hs
    | cons op l ih =>
      intro s hs
      exact ih (applyZoomOp s op) (applyZoomOp_bounds s op hs)
  exact key ops initialZoomState ⟨by norm_num [initialZoomState], by norm_num [initialZoomState]⟩

/-- C8: in the `onclose` handler of `useWebSocket`, a clean close
(code 1000) never schedules a reconnection; a non-clean close with `n`
reconnection attempts so far and `n < 5` schedules a reconnection after
`min (1000 * 2 ^ n) 30000` milliseconds; and once `n ≥ 5` no
reconnection is scheduled and the hook error state is set to the
failed-reconnect message. -/
theorem useWebSocket_onClose_policy (code n : Nat) :
    (code = 1000 → (onCloseBehavior code n).scheduledDelay = none) ∧
    (code ≠ 1000 → n < 5 →
      (onCloseBehavior code n).scheduledDelay = some (min (1000 * 2 ^ n) 30000)) ∧
    (5 ≤ n → (onCloseBehavior code n).scheduledDelay = none ∧
      (onCloseBehavior code n).errorSet
        = some "Failed to reconnect to WebSocket after multiple attempts") := by
  unfold onCloseBehavior maxReconnectAttempts
  refine ⟨fun hc => ?_, fun hc hn => ?_, fun h5 => ?_⟩
  · rw [if_neg (by omega)]
    split <;> rfl
  · rw [if_pos ⟨hc, hn⟩]
  · rw [if_neg (by omega), if_pos (by omega)]
    exact ⟨rfl, rfl⟩

/-- Witness for C8: a non-clean close with two prior attempts schedules
a 4000 ms reconnect; a clean close schedules none; the sixth failure
sets the error message. -/
theorem useWebSocket_onClose_policy_witness :
    (onCloseBehavior 1006 2).scheduledDelay = some 4000 ∧
    (onCloseBehavior 1000 0).scheduledDelay = none ∧
    (onCloseBehavior 1006 5).errorSet
      = some "Failed to reconnect to WebSocket after multiple attempts" := by
  refine ⟨?_, ?_, ?_⟩
  · have h := (useWebSocket_onClose_policy 1006 2).2.1 (by decide) (by decide)
    rw [h]
    norm_num
  · exact (useWebSocket_onClose_policy 1000 0).1 rfl
  · exact ((useWebSocket_onClose_policy 1006 5).2.2 (by norm_num)).2

/-- C7: both `MemoContainer` and `FlowNode` compute the level CSS class
as `level-` followed by `min level 8`: every node with level ≥ 8 gets
class `level-8`, and every node with level < 8 gets `level-{level}`
unclamped. -/
theorem levelClass_clamped (level : Nat) :
    memoContainerLevelClass level = ofStr "level-" ++ Nat.toDigits 10 (min level 8) ∧
    flowNodeLevelClass level = memoContainerLevelClass level ∧
    (8 ≤ level → memoContainerLevelClass level = ofStr "level-8") ∧
    (level < 8 → memoContainerLevelClass level = ofStr "level-" ++ Nat.toDigits 10 level) := by
  refine ⟨rfl, rfl, fun h => ?_, fun h => ?_⟩
  · unfold memoContainerLevelClass
    rw [min_eq_right h]
    decide
  · unfold memoContainerLevelClass
    rw [min_eq_left (le_of_lt h)]

/-- Witness for C7: level 12 renders as `level-8`, level 3 as `level-3`. -/
theorem levelClass_clamped_witness :
    memoContainerLevelClass 12 = ofStr "level-8" ∧
    memoContainerLevelClass 3 = ofStr "level-3" := by
  constructor
  · exact (levelClass_clamped 12).2.2.1 (by norm_num)
  · have h := (levelClass_clamped 3).2.2.2 (by norm_num)
    rw [h]
    decide

/-- C3: every failing fetch outcome (non-OK HTTP status or a thrown
network/JSON error) makes `getDirectoryTree` and `getFileContent`
resolve — never reject — with the `error` field set to the caught error
message and `data` equal to the empty default (`{path: '', files: [],
subdirectories: []}` resp. `{path: filePath, content: '', memos: []}`). -/
theorem apiClient_error_resolution (filePath : Str)
    (ev : FetchEvent ApiDirectoryTree) (ev2 : FetchEvent ApiFileContent)
    (h : ev.isFailure = true) (h2 : ev2.isFailure = true) :
    getDirectoryTreeResult ev
      = { data := ApiDirectoryTree.mk [] [] .nil, error := some (fetchErrorMessage ev) } ∧
    getFileContentResult filePath ev2
      = { data := { path := filePath, content := [], memos := [] },
          error := some (fetchErrorMessage ev2) } := by
  constructor
  · cases ev with
    | success b => simp [FetchEvent.isFailure] at h
    | httpError s t => rfl
    | thrown m => rfl
  · cases ev2 with
    | success b => simp [FetchEvent.isFailure] at h2
    | httpError s t => rfl
    | thrown m => rfl

/-- Witness for C3: a 404 response resolves with the empty directory
default and the `HTTP 404: Not Found` message; a non-`Error` throw
resolves with the file default and `Unknown error`. -/
theorem apiClient_error_resolution_witness :
    getDirectoryTreeResult (FetchEvent.httpError 404 "Not Found")
      = { data := ApiDirectoryTree.mk [] [] .nil, error := some "HTTP 404: Not Found" } ∧
    getFileContentResult (ofStr "a.md") (FetchEvent.thrown (α := ApiFileContent) none)
      = { data := { path := ofStr "a.md", content := [], memos := [] },
          error := some "Unknown error" } := by
  have h := apiClient_error_resolution (ofStr "a.md")
    (FetchEvent.httpError 404 "Not Found") (FetchEvent.thrown none) rfl rfl
  exact ⟨h.1, h.2⟩

/-- C4: `getDirectoryTree` requests the root endpoint `/api/root` if and
only if the path argument is the empty string; every non-empty path is
requested at `/api/files/{path}` with the path URI-encoded. -/
theorem getDirectoryTree_url_spec (baseUrl path : Str) :
    (directoryTreeUrl baseUrl path = baseUrl ++ ofStr "/api/root" ↔ path = []) ∧
    (path ≠ [] → directoryTreeUrl baseUrl path
      = baseUrl ++ ofStr "/api/files/" ++ encodeURIComponent path) := by
  have hfiles : (ofStr "/api/files/").length = 11 := by decide
  have hroot : (ofStr "/api/root").length = 9 := by decide
  constructor
  · constructor
    · intro h
      by_contra hne
      unfold directoryTreeUrl at h
      rw [if_pos hne] at h
      have hlen := congrArg List.length h
      simp only [List.length_append, hfiles, hroot] at hlen
      omega
    · intro h
      subst h
      unfold directoryTreeUrl
      simp
  · intro h
    unfold directoryTreeUrl
    rw [if_pos h]

/-- Witness for C4: the empty path goes to `/api/root`; the path `a b`
goes to `/api/files/a%20b`. -/
theorem getDirectoryTree_url_spec_witness :
    directoryTreeUrl [] [] = ofStr "/api/root" ∧
    directoryTreeUrl [] (ofStr "a b") = ofStr "/api/files/a%20b" := by
  constructor
  · have h := (getDirectoryTree_url_spec [] []).1.2 rfl
    simpa using h
  · have h := (getDirectoryTree_url_spec [] (ofStr "a b")).2 (by decide)
    rw [h]
    decide


/-- C5 (counterexample): with the stored last root path `/root` (set by
a preceding `convertToDirectoryStructure` call), `getFileContent` for
`/root/sub/a.md` requests `/api/file/sub%2Fa.md` — the root-relative
path, URI-encoded — and not `/api/file/` followed by the encoded bare
filename `a.md` that the claim prescribes. -/
theorem getFileContent_url_counterexample :
    fileContentUrl [] (some (ofStr "/root")) (ofStr "/root/sub/a.md")
      = ofStr "/api/file/sub%2Fa.md" ∧
    fileContentUrl [] (some (ofStr "/root")) (ofStr "/root/sub/a.md")
      ≠ ofStr "/api/file/" ++ encodeURIComponent (ofStr "a.md") := by
  constructor
  · decide
  · decide

/-- C5 (amended): `getFileContent` requests `/api/file/{f}` with `f`
URI-encoded, where `f` is the remainder of `filePath` after stripping
the stored last root path (and one leading slash) when that root path is
set, non-empty and a prefix of `filePath`; otherwise `f` is the
substring after the last `/` (and `filePath` itself when it contains no
`/`). -/
theorem getFileContent_url_amended (baseUrl filePath : Str) (lastRootPath : Option Str) :
    fileContentUrl baseUrl lastRootPath filePath
      = baseUrl ++ ofStr "/api/file/"
          ++ encodeURIComponent (relativePathForApi lastRootPath filePath) ∧
    (∀ r rest : Str, r ≠ [] → filePath = r ++ '/' :: rest →
        relativePathForApi (some r) filePath = rest) ∧
    (¬ '/' ∈ filePath → relativePathForApi none filePath = filePath) ∧
    (∀ pre base : Str, filePath = pre ++ '/' :: base → ¬ '/' ∈ base → base ≠ [] →
        relativePathForApi none filePath = base) := by
  refine ⟨rfl, ?_, ?_, ?_⟩
  · intro r rest hr hfp
    subst hfp
    have hpre : r.isPrefixOf (r ++ '/' :: rest) = true :=
      List.isPrefixOf_iff_prefix.mpr ⟨'/' :: rest, rfl⟩
    have hpre1 : List.isPrefixOf ['/'] ('/' :: rest) = true :=
      List.isPrefixOf_iff_prefix.mpr ⟨rest, rfl⟩
    simp only [relativePathForApi]
    rw [if_pos ⟨hr, hpre⟩, List.drop_left]
    rw [if_pos hpre1]
    rfl
  · intro h
    simp only [relativePathForApi, basenameFallback]
    rw [if_neg h]
  · intro pre base hfp hbase hne
    subst hfp
    simp only [relativePathForApi, basenameFallback]
    rw [if_pos (by simp)]
    rw [splitChar_append_sep, splitChar_of_not_contains base '/' hbase]
    have hlast : (splitChar pre '/' ++ [base]).getLast? = some base := by simp
    rw [hlast]
    simp [hne]

/-- Witness for C5 (amended): the three `relativePathForApi` clauses at
concrete inputs. -/
theorem getFileContent_url_amended_witness :
    relativePathForApi (some (ofStr "/root")) (ofStr "/root/x/y.md") = ofStr "x/y.md" ∧
    relativePathForApi none (ofStr "notes.md") = ofStr "notes.md" ∧
    relativePathForApi none (ofStr "dir/sub/y.md") = ofStr "y.md" := by
  refine ⟨?_, ?_, ?_⟩
  · exact (getFileContent_url_amended [] (ofStr "/root/x/y.md") (some (ofStr "/root"))).2.1
      (ofStr "/root") (ofStr "x/y.md") (by decide) (by decide)
  · exact (getFileContent_url_amended [] (ofStr "notes.md") none).2.2.1 (by decide)
  · exact (getFileContent_url_amended [] (ofStr "dir/sub/y.md") none).2.2.2
      (ofStr "dir/sub") (ofStr "y.md") (by decide) (by decide) (by decide)

end Fmemo

namespace Fmemo

/-- `lexLe` is total. -/
theorem lexLe_total (a b : Str) : lexLe a b = true ∨ lexLe b a = true := by
  induction a generalizing b with
  | nil => left; rfl
  | cons x xs ih =>
    cases b with
    | nil => right; rfl
    | cons y ys =>
      by_cases hxy : x = y
      · subst hxy
        simp only [lexLe, if_pos rfl]
        exact ih ys
      · rcases lt_or_gt_of_ne hxy with h | h
        · left
          simp [lexLe, hxy, h]
        · right
          simp [lexLe, Ne.symm hxy, h]

/-- `lexLe` is transitive. -/
theorem lexLe_trans (a b c : Str) (hab : lexLe a b = true) (hbc : lexLe b c = true) :
    lexLe a c = true := by
  induction a generalizing b c with
  | nil => rfl
  | cons x xs ih =>
    cases b with
    | nil => simp [lexLe] at hab
    | cons y ys =>
      cases c with
      | nil => simp [lexLe] at hbc
      | cons z zs =>
        simp only [lexLe] at hab hbc ⊢
        by_cases hxy : x = y <;> by_cases hyz : y = z
        · subst hxy; subst hyz
          rw [if_pos rfl] at hab hbc ⊢
          exact ih ys zs hab hbc
        · subst hxy
          rw [if_pos rfl] at hab
          rw [if_neg hyz] at hbc
          rw [if_neg hyz]
          exact hbc
        · subst hyz
          rw [if_neg hxy] at hab
          rw [if_neg hxy]
          exact hab
        · rw [if_neg hxy] at hab
          rw [if_neg hyz] at hbc
          simp only [decide_eq_true_eq] at hab hbc
          have hxz : x < z := lt_trans hab hbc
          rw [if_neg (ne_of_lt hxz)]
          simp [hxz]

/-- `fileItemLe` is total. -/
theorem fileItemLe_total (a b : FileItem) : fileItemLe a b = true ∨ fileItemLe b a = true := by
  unfold fileItemLe
  by_cases h : a.type = b.type
  · rw [if_neg (by simp [h]), if_neg (by simp [h])]
    exact lexLe_total a.name b.name
  · cases ha : a.type <;> cases hb : b.type <;> rw [ha, hb] at h <;> simp_all

/-- `fileItemLe` is transitive. -/
theorem fileItemLe_trans (a b c : FileItem) (hab : fileItemLe a b = true)
    (hbc : fileItemLe b c = true) : fileItemLe a c = true := by
  unfold fileItemLe at hab hbc ⊢
  cases ha : a.type <;> cases hb : b.type <;> cases hc : c.type <;>
    simp_all <;> exact lexLe_trans _ _ _ hab hbc

/-- Membership in an ordered insertion. -/
theorem mem_orderedInsert (x z : FileItem) (l : List FileItem) :
    z ∈ orderedInsert fileItemLe x l ↔ z = x ∨ z ∈ l := by
  induction l with
  | nil => simp [orderedInsert]
  | cons y ys ih =>
    unfold orderedInsert
    split
    · simp only [List.mem_cons, ih]
      tauto
    · simp [List.mem_cons]

/-- Ordered insertion preserves pairwise sortedness under `fileItemLe`. -/
theorem pairwise_orderedInsert (x : FileItem) (l : List FileItem)
    (h : List.Pairwise (fun a b => fileItemLe a b = true) l) :
    List.Pairwise (fun a b => fileItemLe a b = true) (orderedInsert fileItemLe x l) := by
  induction l with
  | nil => simp [orderedInsert]
  | cons y ys ih =>
    rw [List.pairwise_cons] at h
    obtain ⟨hy, hys⟩ := h
    unfold orderedInsert
    split
    · rename_i hcond
      rw [List.pairwise_cons]
      constructor
      · intro z hz
        rcases (mem_orderedInsert x z ys).mp hz with rfl | hz'
        · exact hcond.1
        · exact hy z hz'
      · exact ih hys
    · rename_i hcond
      have hxy : fileItemLe x y = true := by
        rcases fileItemLe_total x y with h' | h'
        · exact h'
        · by_cases h2 : fileItemLe x y = true
          · exact h2
          · exact absurd ⟨h', h2⟩ hcond
      rw [List.pairwise_cons]
      constructor
      · intro z hz
        rcases List.mem_cons.mp hz with rfl | hz'
        · exact hxy
        · exact fileItemLe_trans x y z hxy (hy z hz')
      · rw [List.pairwise_cons]
        exact ⟨hy, hys⟩

/-- The sort of `convertToDirectoryStructure` produces a list pairwise
ordered by its comparator. -/
theorem pairwise_sortItems (l : List FileItem) :
    List.Pairwise (fun a b => fileItemLe a b = true) (sortItems l) := by
  induction l with
  | nil => simp [sortItems]
  | cons x xs ih => exact pairwise_orderedInsert x (sortItems xs) ih

/-- C6 (counterexample): converting a directory whose API data has the
single subdirectory `z` and the single file `a` yields the items in the
order `[z, a]` — the directory first — even though `a` precedes `z`
lexicographically, so the presented listing is not ordered
lexicographically by name without pre-separating directories from
files. -/
theorem convertToDirectoryStructure_order_counterexample :
    ((convertToDirectoryStructure
        (ApiDirectoryTree.mk (ofStr "/t") [ofStr "a"]
          (ApiDirTreeList.cons (ApiDirectoryTree.mk (ofStr "/t/z") [] .nil) .nil))
        none).items.map FileItem.name = [ofStr "z", ofStr "a"]) ∧
    lexLe (ofStr "a") (ofStr "z") = true ∧ ofStr "a" ≠ ofStr "z" := by
  refine ⟨by decide, by decide, by decide⟩

/-- C6 (amended): the items presented by `convertToDirectoryStructure`
are ordered by the frontend comparator — every directory item precedes
every file item, and within each group entries are ordered
lexicographically by name; in particular no file ever appears before a
directory. -/
theorem convertToDirectoryStructure_order_amended (apiData : ApiDirectoryTree)
    (currentPath : Option Str) :
    List.Pairwise (fun a b => fileItemLe a b = true)
      (convertToDirectoryStructure apiData currentPath).items ∧
    (∀ i j : Fin (convertToDirectoryStructure apiData currentPath).items.length,
      i < j →
      ¬ (((convertToDirectoryStructure apiData currentPath).items.get i).type
            = FileItemType.file ∧
         ((convertToDirectoryStructure apiData currentPath).items.get j).type
            = FileItemType.directory)) := by
  have hp : List.Pairwise (fun a b => fileItemLe a b = true)
      (convertToDirectoryStructure apiData currentPath).items := by
    cases apiData with
    | mk p fs subs =>
      simp only [convertToDirectoryStructure]
      exact pairwise_sortItems _
  refine ⟨hp, ?_⟩
  intro i j hij ⟨hfile, hdir⟩
  have hle := List.pairwise_iff_get.mp hp i j hij
  unfold fileItemLe at hle
  rw [hfile, hdir] at hle
  simp at hle

end Fmemo

namespace Fmemo

/-- C1 (counterexample): the push-channel message union contains a
third type, `reload`, distinct from both `file_updated` and
`directory_updated`, and the `App` subscriber processes a `reload`
message (it does not fall into the unknown-type default branch), so the
push-channel contract is not limited to the two claimed shapes. -/
theorem wsMessage_two_shapes_counterexample :
    appHandleWebSocketMessage
        { type := WebSocketMessageType.reload, path := none, file_path := none,
          html := none, memos := none, tree := none } []
      = AppWsAction.reloadApp false ∧
    appHandleWebSocketMessage
        { type := WebSocketMessageType.reload, path := none, file_path := none,
          html := none, memos := none, tree := none } []
      ≠ AppWsAction.unknown ∧
    WebSocketMessageType.reload ≠ WebSocketMessageType.file_updated ∧
    WebSocketMessageType.reload ≠ WebSocketMessageType.directory_updated ∧
    WebSocketMessageType.reload ≠ WebSocketMessageType.update := by
  refine ⟨rfl, ?_, by decide, by decide, by decide⟩
  intro h
  exact AppWsAction.noConfusion h

/-- C1 (amended): the client-side push-channel message union has
exactly the four types `reload`, `update`, `file_updated` and
`directory_updated`; the `App` subscriber processes `reload` (full
refresh) and `update`/`file_updated` (per-file handling keyed on the
message's `path` field), and a message falls into the unknown-type
default branch exactly when its type is `directory_updated`. -/
theorem wsMessage_contract_amended :
    (∀ t : WebSocketMessageType,
        t = WebSocketMessageType.reload ∨ t = WebSocketMessageType.update ∨
        t = WebSocketMessageType.file_updated ∨ t = WebSocketMessageType.directory_updated) ∧
    (∀ (msg : WebSocketMessage) (selectedFile : Str),
        appHandleWebSocketMessage msg selectedFile = AppWsAction.unknown
          ↔ msg.type = WebSocketMessageType.directory_updated) := by
  constructor
  · intro t
    cases t
    · exact Or.inl rfl
    · exact Or.inr (Or.inl rfl)
    · exact Or.inr (Or.inr (Or.inl rfl))
    · exact Or.inr (Or.inr (Or.inr rfl))
  · intro msg sel
    obtain ⟨t, p, fp, ht, m, tr⟩ := msg
    cases t with
    | reload =>
      simp only [appHandleWebSocketMessage]
      constructor
      · intro h
        exact absurd h (by intro h2; exact AppWsAction.noConfusion h2)
      · intro h
        exact absurd h (by intro h2; exact WebSocketMessageType.noConfusion h2)
    | update =>
      simp only [appHandleWebSocketMessage, appHandleFileUpdated]
      constructor
      · intro h
        cases p with
        | none => exact AppWsAction.noConfusion h
        | some updatedPath =>
          simp only at h
          split at h
          · exact AppWsAction.noConfusion h
          · exact AppWsAction.noConfusion h
      · intro h
        exact absurd h (by intro h2; exact WebSocketMessageType.noConfusion h2)
    | file_updated =>
      simp only [appHandleWebSocketMessage, appHandleFileUpdated]
      constructor
      · intro h
        cases p with
        | none => exact AppWsAction.noConfusion h
        | some updatedPath =>
          simp only at h
          split at h
          · exact AppWsAction.noConfusion h
          · exact AppWsAction.noConfusion h
      · intro h
        exact absurd h (by intro h2; exact WebSocketMessageType.noConfusion h2)
    | directory_updated => exact ⟨fun _ => rfl, fun _ => rfl⟩

end Fmemo

namespace Fmemo

/-- The piece renderer distributes over append. -/
theorem renderPieces_append (ps qs : List HtmlPiece) :
    renderPieces (ps ++ qs) = renderPieces ps ++ renderPieces qs := by
  simp [renderPieces]

/-- Rendering `n` close pieces yields `n` close tags. -/
theorem renderPieces_replicate_ulClose (n : Nat) :
    renderPieces (List.replicate n HtmlPiece.ulClose) = repeatStr closeUlStr n := by
  simp [renderPieces, repeatStr, List.map_replicate, renderPiece]

/-- Rendering one piece. -/
theorem renderPieces_singleton (x : HtmlPiece) : renderPieces [x] = renderPiece x := by
  simp [renderPieces]

/-- Rendering the empty piece list. -/
theorem renderPieces_nil : renderPieces [] = [] := rfl

/-- Rendering distributes over cons. -/
theorem renderPieces_cons (x : HtmlPiece) (ps : List HtmlPiece) :
    renderPieces (x :: ps) = renderPiece x ++ renderPieces ps := by
  simp [renderPieces]

/-- One loop iteration preserves the refinement relation. -/
theorem mdRel_step (m : MdState) (p : PieceState) (line : Str) (h : MdRel m p) :
    MdRel (mdStep m line) (pieceStep p line) := by
  obtain ⟨h1, h2, h3⟩ := h
  rcases hpop : popGE p.listLevels (line.length - (jsTrimStart line).length)
    with ⟨levels1, closed⟩
  unfold MdRel
  cases levels1 with
  | nil =>
    simp only [mdStep, pieceStep, h1, h2, h3, hpop]
    split_ifs <;>
      simp [renderPieces_append, renderPieces_cons, renderPieces_nil,
        renderPieces_replicate_ulClose, renderPiece, List.append_assoc]
  | cons top restl =>
    simp only [mdStep, pieceStep, h1, h2, h3, hpop]
    by_cases htop : top < line.length - (jsTrimStart line).length <;>
      split_ifs <;>
      simp [htop, renderPieces_append, renderPieces_cons, renderPieces_nil,
        renderPieces_replicate_ulClose, renderPiece, List.append_assoc]

/-- The whole loop preserves the refinement relation. -/
theorem mdRel_foldl (lines : List Str) (m : MdState) (p : PieceState) (h : MdRel m p) :
    MdRel (lines.foldl mdStep m) (lines.foldl pieceStep p) := by
  induction lines generalizing m p with
  | nil => exact h
  | cons line rest ih => exact ih _ _ (mdRel_step m p line h)

/-- No character produced by escaping a single character is a raw
`<`, `>`, double quote or apostrophe. -/
theorem escapeHtmlChar_no_raw (d c : Char) (h : c ∈ escapeHtmlChar d) :
    c ≠ '<' ∧ c ≠ '>' ∧ c ≠ Char.ofNat 34 ∧ c ≠ Char.ofNat 39 := by
  unfold escapeHtmlChar at h
  split_ifs at h with h1 h2 h3 h4 h5
  · rw [show ofStr "&amp;" = ['&', 'a', 'm', 'p', ';'] from rfl] at h
    have hd : c = '&' ∨ c = 'a' ∨ c = 'm' ∨ c = 'p' ∨ c = ';' := by simpa using h
    rcases hd with rfl | rfl | rfl | rfl | rfl <;>
      exact ⟨by decide, by decide, by decide, by decide⟩
  · rw [show ofStr "&lt;" = ['&', 'l', 't', ';'] from rfl] at h
    have hd : c = '&' ∨ c = 'l' ∨ c = 't' ∨ c = ';' := by simpa using h
    rcases hd with rfl | rfl | rfl | rfl <;>
      exact ⟨by decide, by decide, by decide, by decide⟩
  · rw [show ofStr "&gt;" = ['&', 'g', 't', ';'] from rfl] at h
    have hd : c = '&' ∨ c = 'g' ∨ c = 't' ∨ c = ';' := by simpa using h
    rcases hd with rfl | rfl | rfl | rfl <;>
      exact ⟨by decide, by decide, by decide, by decide⟩
  · rw [show ofStr "&quot;" = ['&', 'q', 'u', 'o', 't', ';'] from rfl] at h
    have hd : c = '&' ∨ c = 'q' ∨ c = 'u' ∨ c = 'o' ∨ c = 't' ∨ c = ';' := by simpa using h
    rcases hd with rfl | rfl | rfl | rfl | rfl | rfl <;>
      exact ⟨by decide, by decide, by decide, by decide⟩
  · rw [show ofStr "&#x27;" = ['&', '#', 'x', '2', '7', ';'] from rfl] at h
    have hd : c = '&' ∨ c = '#' ∨ c = 'x' ∨ c = '2' ∨ c = '7' ∨ c = ';' := by simpa using h
    rcases hd with rfl | rfl | rfl | rfl | rfl | rfl <;>
      exact ⟨by decide, by decide, by decide, by decide⟩
  · rw [List.mem_singleton] at h
    subst h
    exact ⟨h2, h3, h4, h5⟩

/-- C10: `markdownToHtml` renders exactly the piece sequence
`piecesOf`, in which every list-item line contributes a `li` piece whose
raw item text is passed through `escapeHtml` by the renderer while
`para` pieces (non-list paragraph text) are emitted verbatim without
escaping; and `escapeHtml` output never contains a raw `<`, `>`, double
quote or apostrophe (an ampersand only ever enters the output as the
head of one of the five replacement entities of `escapeHtmlChar`). -/
theorem markdownToHtml_escaping :
    (∀ text : Str, markdownToHtml text = renderPieces (piecesOf text)) ∧
    (∀ (s : Str) (c : Char), c ∈ escapeHtml s →
        c ≠ '<' ∧ c ≠ '>' ∧ c ≠ Char.ofNat 34 ∧ c ≠ Char.ofNat 39) := by
  constructor
  · intro text
    have h := mdRel_foldl (splitChar text '\n')
      { html := [], listLevels := [], currentParagraph := [] }
      { pieces := [], listLevels := [], currentParagraph := [] }
      ⟨rfl, rfl, rfl⟩
    obtain ⟨h1, h2, h3⟩ := h
    simp only [markdownToHtml, piecesOf, h1, h2, h3]
    split_ifs with hpara
    · simp [renderPieces_append, renderPieces_singleton, renderPieces_replicate_ulClose,
        renderPiece, List.append_assoc]
    · simp [renderPieces_append, renderPieces_replicate_ulClose, List.append_assoc]
  · intro s c hc
    unfold escapeHtml at hc
    obtain ⟨l, hl, hcl⟩ := List.mem_flatten.mp hc
    obtain ⟨d, _, rfl⟩ := List.mem_map.mp hl
    exact escapeHtmlChar_no_raw d c hcl

/-- Witness for C10: the refinement at a concrete two-line input, and
the escape guarantee applied to the escaped `<` (its output contains the
ampersand of the entity, which is indeed not one of the four raw
characters). -/
theorem markdownToHtml_escaping_witness :
    markdownToHtml (ofStr "- a<b") = renderPieces (piecesOf (ofStr "- a<b")) ∧
    ('&' ≠ '<' ∧ '&' ≠ '>' ∧ '&' ≠ Char.ofNat 34 ∧ '&' ≠ Char.ofNat 39) := by
  constructor
  · exact markdownToHtml_escaping.1 (ofStr "- a<b")
  · exact markdownToHtml_escaping.2 (ofStr "<") '&' (by decide)

end Fmemo

namespace Fmemo

/-- `stepHeading` written with explicit projections. -/
theorem stepHeading_eq (st : List MemoTree × List OpenNode) (h : Nat × Str) :
    stepHeading st h
      = ((closeGE h.1 st.1 st.2).1,
         { level := h.1, title := h.2, revChildren := [] } :: (closeGE h.1 st.1 st.2).2) := by
  simp only [stepHeading]

/-- The roots accumulator of `closeInto` is write-only: running with any
initial roots appends the run over empty roots. -/
theorem closeInto_roots (lvl : Nat) (roots : List MemoTree) (t : MemoTree)
    (stack : List OpenNode) :
    closeInto lvl roots t stack
      = ((closeInto lvl [] t stack).1 ++ roots, (closeInto lvl [] t stack).2) := by
  induction stack generalizing t with
  | nil => simp [closeInto]
  | cons e rest ih =>
    simp only [closeInto]
    split_ifs with he
    · exact ih _
    · simp

/-- The roots accumulator of `closeGE` is write-only. -/
theorem closeGE_roots (lvl : Nat) (roots : List MemoTree) (stack : List OpenNode) :
    closeGE lvl roots stack
      = ((closeGE lvl [] stack).1 ++ roots, (closeGE lvl [] stack).2) := by
  cases stack with
  | nil => simp [closeGE]
  | cons e rest =>
    simp only [closeGE]
    split_ifs with he
    · exact closeInto_roots lvl roots _ rest
    · simp

/-- The roots accumulator of the heading fold is write-only. -/
theorem foldl_stepHeading_roots (hs : List (Nat × Str)) (roots : List MemoTree)
    (stack : List OpenNode) :
    hs.foldl stepHeading (roots, stack)
      = ((hs.foldl stepHeading ([], stack)).1 ++ roots,
         (hs.foldl stepHeading ([], stack)).2) := by
  induction hs generalizing roots stack with
  | nil => simp
  | cons hh ht ih =>
    simp only [List.foldl_cons, stepHeading_eq]
    rw [closeGE_roots hh.1 roots stack]
    rw [ih ((closeGE hh.1 [] stack).1 ++ roots), ih ((closeGE hh.1 [] stack).1)]
    simp [List.append_assoc]

/-- Levels of surviving stack entries of `closeInto` come from the input
stack. -/
theorem closeInto_stack_levels (P : Nat → Prop) (lvl : Nat) (roots : List MemoTree)
    (t : MemoTree) (stack : List OpenNode) (h : ∀ e ∈ stack, P e.level) :
    ∀ e ∈ (closeInto lvl roots t stack).2, P e.level := by
  induction stack generalizing roots t with
  | nil => simp [closeInto]
  | cons e rest ih =>
    simp only [closeInto]
    split_ifs with he
    · exact ih _ _ (fun e' he' => h e' (List.mem_cons_of_mem e he'))
    · intro e' he'
      rcases List.mem_cons.mp he' with rfl | he''
      · exact h e (List.mem_cons_self e rest)
      · exact h e' (List.mem_cons_of_mem e he'')

/-- Levels of surviving stack entries of `closeGE` come from the input
stack. -/
theorem closeGE_stack_levels (P : Nat → Prop) (lvl : Nat) (roots : List MemoTree)
    (stack : List OpenNode) (h : ∀ e ∈ stack, P e.level) :
    ∀ e ∈ (closeGE lvl roots stack).2, P e.level := by
  cases stack with
  | nil => simp [closeGE]
  | cons e rest =>
    simp only [closeGE]
    split_ifs with he
    · exact closeInto_stack_levels P lvl roots _ rest
        (fun e' he' => h e' (List.mem_cons_of_mem e he'))
    · exact h

/-- Levels of stack entries of the heading fold come from the input
stack or the processed headings. -/
theorem foldl_stack_levels (P : Nat → Prop) (hs : List (Nat × Str))
    (roots : List MemoTree) (stack : List OpenNode)
    (hstack : ∀ e ∈ stack, P e.level) (hhs : ∀ x ∈ hs, P x.1) :
    ∀ e ∈ (hs.foldl stepHeading (roots, stack)).2, P e.level := by
  induction hs generalizing roots stack with
  | nil => exact hstack
  | cons hh ht ih =>
    simp only [List.foldl_cons, stepHeading_eq]
    refine ih _ _ ?_ (fun x hx => hhs x (List.mem_cons_of_mem hh hx))
    intro e he
    rcases List.mem_cons.mp he with rfl | he'
    · exact hhs hh (List.mem_cons_self hh ht)
    · exact closeGE_stack_levels P hh.1 roots stack hstack e he'

/-- When every entry of the stack closes under both levels, `closeInto`
does not depend on the level. -/
theorem closeInto_levels_irrel (lvl lvl' : Nat) (stack : List OpenNode)
    (h : ∀ e ∈ stack, lvl ≤ e.level ∧ lvl' ≤ e.level) (roots : List MemoTree)
    (t : MemoTree) :
    closeInto lvl roots t stack = closeInto lvl' roots t stack := by
  induction stack generalizing t with
  | nil => rfl
  | cons e rest ih =>
    have he := h e (List.mem_cons_self e rest)
    simp only [closeInto]
    rw [if_pos he.1, if_pos he.2]
    exact ih (fun e' he' => h e' (List.mem_cons_of_mem e he')) _

/-- When every entry of the stack closes under both levels, `closeGE`
does not depend on the level. -/
theorem closeGE_levels_irrel (lvl lvl' : Nat) (stack : List OpenNode)
    (h : ∀ e ∈ stack, lvl ≤ e.level ∧ lvl' ≤ e.level) (roots : List MemoTree) :
    closeGE lvl roots stack = closeGE lvl' roots stack := by
  cases stack with
  | nil => rfl
  | cons e rest =>
    have he := h e (List.mem_cons_self e rest)
    simp only [closeGE]
    rw [if_pos he.1, if_pos he.2]
    exact closeInto_levels_irrel lvl lvl' rest
      (fun e' he' => h e' (List.mem_cons_of_mem e he')) roots _

end Fmemo

namespace Fmemo

/-- Cascading a finished subtree above an entry that does not close:
the cascade acts only on the upper part of the stack, and whatever it
would have rooted is attached to that entry's children instead. -/
theorem closeInto_split_high (lvl : Nat) (sub : List OpenNode) (e : OpenNode)
    (he : e.level < lvl) (roots : List MemoTree) (t : MemoTree)
    (stack : List OpenNode) :
    closeInto lvl roots t (sub ++ e :: stack)
      = (roots,
         (closeInto lvl [] t sub).2
           ++ { e with revChildren := (closeInto lvl [] t sub).1 ++ e.revChildren }
             :: stack) := by
  induction sub generalizing t with
  | nil =>
    simp only [List.nil_append, closeInto]
    rw [if_neg (by omega)]
    rfl
  | cons e2 sub ih =>
    simp only [List.cons_append, closeInto]
    split_ifs with he2
    · exact ih _
    · simp

/-- Closing at a level above an entry that does not close. -/
theorem closeGE_split_high (lvl : Nat) (sub : List OpenNode) (e : OpenNode)
    (he : e.level < lvl) (roots : List MemoTree) (stack : List OpenNode) :
    closeGE lvl roots (sub ++ e :: stack)
      = (roots,
         (closeGE lvl [] sub).2
           ++ { e with revChildren := (closeGE lvl [] sub).1 ++ e.revChildren }
             :: stack) := by
  cases sub with
  | nil =>
    simp only [List.nil_append, closeGE]
    rw [if_neg (by omega)]
  | cons e2 sub =>
    simp only [List.cons_append, closeGE]
    split_ifs with he2
    · exact closeInto_split_high lvl sub e he roots _ stack
    · simp

/-- Processing headings that are all deeper than an open entry leaves
that entry and everything below it alone, except that the headings'
finished trees accumulate into the entry's children. -/
theorem foldl_above (ts : List (Nat × Str)) (e : OpenNode)
    (hts : ∀ x ∈ ts, e.level < x.1) (roots : List MemoTree)
    (stack subStack : List OpenNode) :
    ts.foldl stepHeading (roots, subStack ++ e :: stack)
      = (roots,
         (ts.foldl stepHeading ([], subStack)).2
           ++ { e with
                revChildren := (ts.foldl stepHeading ([], subStack)).1 ++ e.revChildren }
             :: stack) := by
  induction ts generalizing subStack e with
  | nil => simp
  | cons x ts ih =>
    have hx : e.level < x.1 := hts x (List.mem_cons_self x ts)
    simp only [List.foldl_cons, stepHeading_eq]
    rw [closeGE_split_high x.1 subStack e hx roots stack]
    have hstep :
        ({ level := x.1, title := x.2, revChildren := [] }
            :: ((closeGE x.1 [] subStack).2
                ++ { e with
                     revChildren := (closeGE x.1 [] subStack).1 ++ e.revChildren }
                  :: stack))
          = ({ level := x.1, title := x.2, revChildren := [] }
              :: (closeGE x.1 [] subStack).2)
            ++ { e with
                 revChildren := (closeGE x.1 [] subStack).1 ++ e.revChildren }
              :: stack := by
      simp
    rw [hstep]
    rw [ih ({ e with revChildren := (closeGE x.1 [] subStack).1 ++ e.revChildren })
        (fun y hy => hts y (List.mem_cons_of_mem x hy))
        ({ level := x.1, title := x.2, revChildren := [] } :: (closeGE x.1 [] subStack).2)]
    rw [foldl_stepHeading_roots ts ((closeGE x.1 [] subStack).1)
        ({ level := x.1, title := x.2, revChildren := [] } :: (closeGE x.1 [] subStack).2)]
    simp [List.append_assoc]

end Fmemo

namespace Fmemo

/-- Cascading a finished subtree through entries that all close, down to
an entry that also closes: the whole upper block folds into that entry's
node. -/
theorem closeInto_split_low (lvl : Nat) (sub : List OpenNode) (e : OpenNode)
    (he : lvl ≤ e.level) (hsub : ∀ x ∈ sub, lvl ≤ x.level) (roots : List MemoTree)
    (t : MemoTree) (stack : List OpenNode) :
    closeInto lvl roots t (sub ++ e :: stack)
      = closeInto lvl roots
          (MemoTree.mk e.level e.title
            (((closeInto lvl [] t sub).1 ++ e.revChildren).reverse)) stack := by
  induction sub generalizing t with
  | nil =>
    simp only [List.nil_append, closeInto]
    rw [if_pos he]
    rfl
  | cons e2 sub ih =>
    have he2 : lvl ≤ e2.level := hsub e2 (List.mem_cons_self e2 sub)
    simp only [List.cons_append, closeInto]
    rw [if_pos he2, if_pos he2]
    exact ih (fun x hx => hsub x (List.mem_cons_of_mem e2 hx)) _

/-- Closing at a level at which an entry and everything above it close:
the upper block folds into that entry's node, which keeps cascading into
the rest of the stack. -/
theorem closeGE_split_low (lvl : Nat) (sub : List OpenNode) (e : OpenNode)
    (he : lvl ≤ e.level) (hsub : ∀ x ∈ sub, lvl ≤ x.level) (roots : List MemoTree)
    (stack : List OpenNode) :
    closeGE lvl roots (sub ++ e :: stack)
      = closeInto lvl roots
          (MemoTree.mk e.level e.title
            (((closeGE lvl [] sub).1 ++ e.revChildren).reverse)) stack := by
  cases sub with
  | nil =>
    simp only [List.nil_append, closeGE]
    rw [if_pos he]
  | cons e2 sub =>
    have he2 : lvl ≤ e2.level := hsub e2 (List.mem_cons_self e2 sub)
    simp only [List.cons_append, closeGE]
    rw [if_pos he2, if_pos he2]
    exact closeInto_split_low lvl sub e he
      (fun x hx => hsub x (List.mem_cons_of_mem e2 hx)) roots _ stack

/-- The head of a `dropWhile` does not satisfy the predicate. -/
theorem dropWhile_head_not (p : (Nat × Str) → Bool) (l : List (Nat × Str))
    (x : Nat × Str) (xs : List (Nat × Str)) (h : l.dropWhile p = x :: xs) :
    ¬ p x = true := by
  induction l with
  | nil => simp at h
  | cons y ys ih =>
    rw [List.dropWhile_cons] at h
    by_cases hy : p y = true
    · rw [if_pos hy] at h
      exact ih h
    · rw [if_neg hy] at h
      cases h
      exact hy

end Fmemo

namespace Fmemo

/-- The heading parse of a non-empty document: the first heading owns
exactly the maximal following block of strictly deeper headings as its
(recursively parsed) children, and the remainder — starting at the next
heading of its level or shallower — parses as its siblings. -/
theorem parseHeadings_unfold (h : Nat × Str) (ts : List (Nat × Str)) :
    parseHeadings (h :: ts)
      = MemoTree.mk h.1 h.2 (parseHeadings (ts.takeWhile (fun x => h.1 < x.1)))
          :: parseHeadings (ts.dropWhile (fun x => h.1 < x.1)) := by
  have h1 : parseHeadings (h :: ts)
      = finalizeForest (ts.foldl stepHeading
          ([], [{ level := h.1, title := h.2, revChildren := [] }])) := rfl
  have hb : ∀ x ∈ ts.takeWhile (fun x => h.1 < x.1),
      ({ level := h.1, title := h.2, revChildren := [] } : OpenNode).level < x.1 := by
    intro x hx
    simpa using List.mem_takeWhile_imp hx
  have h2 := foldl_above (ts.takeWhile (fun x => h.1 < x.1))
    { level := h.1, title := h.2, revChildren := [] } hb [] [] []
  simp only [List.nil_append, List.append_nil] at h2
  have hlev : ∀ e ∈ ((ts.takeWhile (fun x => h.1 < x.1)).foldl stepHeading ([], [])).2,
      h.1 < e.level := by
    refine foldl_stack_levels (fun l => h.1 < l) _ [] [] (by simp) ?_
    intro x hx
    simpa using List.mem_takeWhile_imp hx
  have hpb : parseHeadings (ts.takeWhile (fun x => h.1 < x.1))
      = ((closeGE 0 []
            ((ts.takeWhile (fun x => h.1 < x.1)).foldl stepHeading ([], [])).2).1
          ++ ((ts.takeWhile (fun x => h.1 < x.1)).foldl stepHeading ([], [])).1).reverse := by
    unfold parseHeadings finalizeForest
    rw [closeGE_roots]
  have h3 : ts.foldl stepHeading ([], [{ level := h.1, title := h.2, revChildren := [] }])
      = (ts.dropWhile (fun x => h.1 < x.1)).foldl stepHeading
          ([], ((ts.takeWhile (fun x => h.1 < x.1)).foldl stepHeading ([], [])).2
            ++ [{ level := h.1, title := h.2,
                  revChildren :=
                    ((ts.takeWhile (fun x => h.1 < x.1)).foldl stepHeading ([], [])).1 }]) := by
    conv_lhs => rw [← List.takeWhile_append_dropWhile (p := fun x => h.1 < x.1) (l := ts)]
    rw [List.foldl_append, h2]
  cases hr : ts.dropWhile (fun x => h.1 < x.1) with
  | nil =>
    rw [h1, h3, hr]
    simp only [List.foldl_nil]
    unfold finalizeForest
    rw [closeGE_split_low 0 _ _ (Nat.zero_le _) (fun x _ => Nat.zero_le _) [] []]
    simp only [closeInto]
    rw [show parseHeadings [] = [] from rfl]
    simp [hpb]
  | cons h2h rest2 =>
    have hh2 : h2h.1 ≤ h.1 := by
      have := dropWhile_head_not _ ts h2h rest2 hr
      simp only [decide_eq_true_eq] at this
      omega
    rw [h1, h3, hr, List.foldl_cons, stepHeading_eq]
    rw [closeGE_split_low h2h.1 _ _ (by simpa using hh2)
        (fun x hx => le_trans hh2 (le_of_lt (hlev x hx))) [] []]
    simp only [closeInto]
    rw [closeGE_levels_irrel h2h.1 0 _
        (fun e he => ⟨le_trans hh2 (le_of_lt (hlev e he)), Nat.zero_le _⟩) []]
    unfold finalizeForest
    rw [foldl_stepHeading_roots rest2]
    rw [closeGE_roots]
    have hpr : parseHeadings (h2h :: rest2)
        = ((closeGE 0 []
              (rest2.foldl stepHeading
                ([], [{ level := h2h.1, title := h2h.2, revChildren := [] }])).2).1
            ++ (rest2.foldl stepHeading
                ([], [{ level := h2h.1, title := h2h.2, revChildren := [] }])).1).reverse := by
      unfold parseHeadings finalizeForest
      rw [List.foldl_cons]
      rw [show stepHeading ([], []) h2h
          = (([] : List MemoTree),
             [{ level := h2h.1, title := h2h.2, revChildren := [] }]) from rfl]
      rw [closeGE_roots]
    rw [hpr, hpb]
    simp [List.reverse_append]

end Fmemo

namespace Fmemo

/-- C2 (spec-modelled): the `HeadingParser` stack algorithm of §4.1
nests every heading under the nearest preceding heading of lower level
— the parse of `h :: ts` makes exactly the maximal following block of
strictly deeper headings the children of `h`, and everything from the
next heading of equal or lower level on parses as following siblings.
In particular two consecutive same-level headings are siblings under
the same parent (the second starts a new node at the same forest
level, never nested under the first), and the document
`"# A\n## B\n## C\n# D"` parses to two roots: `A` with children
`[B, C]` in document order, and `D` with no children. -/
theorem headingParser_nesting :
    (∀ (h : Nat × Str) (ts : List (Nat × Str)),
        parseHeadings (h :: ts)
          = MemoTree.mk h.1 h.2 (parseHeadings (ts.takeWhile (fun x => h.1 < x.1)))
              :: parseHeadings (ts.dropWhile (fun x => h.1 < x.1))) ∧
    (∀ (h h2 : Nat × Str) (ts : List (Nat × Str)), h2.1 ≤ h.1 →
        parseHeadings (h :: h2 :: ts)
          = MemoTree.mk h.1 h.2 [] :: parseHeadings (h2 :: ts)) ∧
    parseDocument (ofStr "# A\n## B\n## C\n# D")
      = [MemoTree.mk 1 (ofStr "A")
           [MemoTree.mk 2 (ofStr "B") [], MemoTree.mk 2 (ofStr "C") []],
         MemoTree.mk 1 (ofStr "D") []] := by
  refine ⟨parseHeadings_unfold, ?_, ?_⟩
  · intro h h2 ts hle
    have hnot : ¬ h.1 < h2.1 := by omega
    rw [parseHeadings_unfold h (h2 :: ts)]
    rw [show (h2 :: ts).takeWhile (fun x => h.1 < x.1) = [] from by
      simp [List.takeWhile_cons, hnot]]
    rw [show (h2 :: ts).dropWhile (fun x => h.1 < x.1) = h2 :: ts from by
      simp [List.dropWhile_cons, hnot]]
    rfl
  · rfl

/-- Witness for C2: two consecutive level-2 headings parse as two
siblings. -/
theorem headingParser_nesting_witness :
    parseHeadings [(2, ofStr "X"), (2, ofStr "Y")]
      = MemoTree.mk 2 (ofStr "X") [] :: parseHeadings [(2, ofStr "Y")] :=
  headingParser_nesting.2.1 (2, ofStr "X") (2, ofStr "Y") [] (by omega)

end Fmemo
